import Mathlib

/-!
Verification of the change-detection and watermark-persistence engine of
the neocities sync script (src/sync.py): the hierarchical configuration
store (class AppConfiguration) and the scan engine (class FileSyncManager).

Embedding conventions:
* JSON values (the configuration tree) are modelled by the inductive type
  JValue.  Python dictionaries are modelled as association lists with
  first-match lookup and in-place replacement, which matches the unique-key
  semantics of a Python dict.  JSON numbers (including the float file
  timestamps) are modelled by Int; every claim here depends only on their
  linear order.
* The stateful methods mutate self.config in place and write it to disk.
  We model them as pure functions from the old tree to the new tree; the
  Bool returned by AppConfiguration.update records whether save_config was
  reached (true) or the function fell through to the warning branch
  (false).  The Python method itself always returns None.
* The filesystem seen by os.walk is modelled as the finite list of visited
  directories, each given by its path segments relative to the scan root
  together with its direct file entries (base name and mtime).  os.walk
  visits every directory of the tree, so a descendant of the directory
  with segments s has segment list s ++ t.  Path strings are produced the
  way the source produces them on a POSIX system: os.path.join of the
  root path and the relative segments, one by one.
* Operations that raise in Python (set() over a non-iterable value,
  ordering comparison between a float and a non-number) make the modelled
  operation return none.  A scan whose stored watermark is present but not
  a number is modelled as failing up front; in Python the TypeError is
  raised at the first compared file.
-/

/-- JSON value tree: the type of AppConfiguration.config and of every value
stored in it. -/
inductive JValue where
  | null : JValue
  | bool : Bool → JValue
  | num : Int → JValue
  | str : String → JValue
  | arr : List JValue → JValue
  | obj : List (String × JValue) → JValue
deriving Repr

mutual

/-- Decidable equality on JValue, written by hand because deriving does not
handle the nested inductive. -/
def jdecEq : (a b : JValue) → Decidable (a = b)
  | .null, .null => isTrue rfl
  | .null, .bool _ => isFalse (fun h => JValue.noConfusion h)
  | .null, .num _ => isFalse (fun h => JValue.noConfusion h)
  | .null, .str _ => isFalse (fun h => JValue.noConfusion h)
  | .null, .arr _ => isFalse (fun h => JValue.noConfusion h)
  | .null, .obj _ => isFalse (fun h => JValue.noConfusion h)
  | .bool _, .null => isFalse (fun h => JValue.noConfusion h)
  | .bool a, .bool b =>
    if h : a = b then isTrue (by rw [h]) else isFalse (fun hh => h (JValue.bool.inj hh))
  | .bool _, .num _ => isFalse (fun h => JValue.noConfusion h)
  | .bool _, .str _ => isFalse (fun h => JValue.noConfusion h)
  | .bool _, .arr _ => isFalse (fun h => JValue.noConfusion h)
  | .bool _, .obj _ => isFalse (fun h => JValue.noConfusion h)
  | .num _, .null => isFalse (fun h => JValue.noConfusion h)
  | .num _, .bool _ => isFalse (fun h => JValue.noConfusion h)
  | .num a, .num b =>
    if h : a = b then isTrue (by rw [h]) else isFalse (fun hh => h (JValue.num.inj hh))
  | .num _, .str _ => isFalse (fun h => JValue.noConfusion h)
  | .num _, .arr _ => isFalse (fun h => JValue.noConfusion h)
  | .num _, .obj _ => isFalse (fun h => JValue.noConfusion h)
  | .str _, .null => isFalse (fun h => JValue.noConfusion h)
  | .str _, .bool _ => isFalse (fun h => JValue.noConfusion h)
  | .str _, .num _ => isFalse (fun h => JValue.noConfusion h)
  | .str a, .str b =>
    if h : a = b then isTrue (by rw [h]) else isFalse (fun hh => h (JValue.str.inj hh))
  | .str _, .arr _ => isFalse (fun h => JValue.noConfusion h)
  | .str _, .obj _ => isFalse (fun h => JValue.noConfusion h)
  | .arr _, .null => isFalse (fun h => JValue.noConfusion h)
  | .arr _, .bool _ => isFalse (fun h => JValue.noConfusion h)
  | .arr _, .num _ => isFalse (fun h => JValue.noConfusion h)
  | .arr _, .str _ => isFalse (fun h => JValue.noConfusion h)
  | .arr as, .arr bs =>
    match jdecEqL as bs with
    | isTrue h => isTrue (by rw [h])
    | isFalse h => isFalse (fun hh => h (JValue.arr.inj hh))
  | .arr _, .obj _ => isFalse (fun h => JValue.noConfusion h)
  | .obj _, .null => isFalse (fun h => JValue.noConfusion h)
  | .obj _, .bool _ => isFalse (fun h => JValue.noConfusion h)
  | .obj _, .num _ => isFalse (fun h => JValue.noConfusion h)
  | .obj _, .str _ => isFalse (fun h => JValue.noConfusion h)
  | .obj _, .arr _ => isFalse (fun h => JValue.noConfusion h)
  | .obj as, .obj bs =>
    match jdecEqO as bs with
    | isTrue h => isTrue (by rw [h])
    | isFalse h => isFalse (fun hh => h (JValue.obj.inj hh))

/-- Decidable equality on lists of JValue. -/
def jdecEqL : (as bs : List JValue) → Decidable (as = bs)
  | [], [] => isTrue rfl
  | [], _ :: _ => isFalse (fun h => List.noConfusion h)
  | _ :: _, [] => isFalse (fun h => List.noConfusion h)
  | a :: as, b :: bs =>
    match jdecEq a b with
    | isFalse h => isFalse (fun hh => h (by injection hh))
    | isTrue h1 =>
      match jdecEqL as bs with
      | isTrue h2 => isTrue (by rw [h1, h2])
      | isFalse h => isFalse (fun hh => h (by injection hh))

/-- Decidable equality on association lists of JValue. -/
def jdecEqO : (as bs : List (String × JValue)) → Decidable (as = bs)
  | [], [] => isTrue rfl
  | [], _ :: _ => isFalse (fun h => List.noConfusion h)
  | _ :: _, [] => isFalse (fun h => List.noConfusion h)
  | (k1, a) :: as, (k2, b) :: bs =>
    if hk : k1 = k2 then
      match jdecEq a b with
      | isFalse h => isFalse (fun hh => by injection hh with h1 h2; exact h (congrArg Prod.snd h1))
      | isTrue h1 =>
        match jdecEqO as bs with
        | isTrue h2 => isTrue (by rw [hk, h1, h2])
        | isFalse h => isFalse (fun hh => h (by injection hh))
    else isFalse (fun hh => by injection hh with h1 h2; exact hk (congrArg Prod.fst h1))

end

instance : DecidableEq JValue := jdecEq

/-- Test used by update at line 107 and 113 of the source:
isinstance(current_data, dict). -/
def JValue.isObj : JValue → Bool
  | .obj _ => true
  | _ => false

/-- Lookup of a key in a Python dict, modelled on the association list:
first match wins. -/
def alookup : List (String × JValue) → String → Option JValue
  | [], _ => none
  | (k, v) :: rest, key => if k = key then some v else alookup rest key

/-- Assignment d[key] = v on a Python dict: replace the value in place if
the key is present, append a new binding otherwise (insertion order is
preserved, as in a dict). -/
def aset : List (String × JValue) → String → JValue → List (String × JValue)
  | [], key, v => [(key, v)]
  | (k, w) :: rest, key, v =>
    if k = key then (k, v) :: rest else (k, w) :: aset rest key v

/-- Splitting of a list of characters at every occurrence of the delimiter,
matching the semantics of the Python str.split method with a one-character
separator: the result is never empty and empty pieces are kept. -/
def splitCharList (delim : Char) : List Char → List (List Char)
  | [] => [[]]
  | c :: cs =>
    if c = delim then [] :: splitCharList delim cs
    else
      match splitCharList delim cs with
      | [] => [[c]]
      | l :: ls => (c :: l) :: ls

/-- String version of splitCharList. -/
def splitOnChar (delim : Char) (s : String) : List String :=
  (splitCharList delim s.data).map String.mk

/-- key_path.split of the source (lines 90 and 102): key paths are split on
the colon. -/
def splitKeys (s : String) : List String := splitOnChar ':' s

namespace AppConfiguration

/-- Loop body of AppConfiguration.get (lines 93 to 98): descend the tree
segment by segment, returning the default as soon as the current value is
not a dict or the key is absent; when the segments are exhausted the
current value is returned. -/
def getKeys : JValue → List String → JValue → JValue
  | cur, [], _ => cur
  | cur, key :: ks, dflt =>
    match cur with
    | .obj d =>
      match alookup d key with
      | some next => getKeys next ks dflt
      | none => dflt
    | _ => dflt

/-- AppConfiguration.get (lines 89 to 98). -/
def get (cfg : JValue) (key_path : String) (default : JValue) : JValue :=
  getKeys cfg (splitKeys key_path) default

/-- Effect on a dict node of the loop of AppConfiguration.update
(lines 105 to 119), given the remaining key segments.  The Python loop
walks the tree with an aliased reference current_data and mutates it in
place; this function returns the resulting subtree.
* One remaining segment: the loop body takes the i == len(keys) - 1 branch
  (the current value here is always a dict), assigns the value and saves.
* More than one segment, key absent: an empty dict is inserted at key and
  the walk descends into it.
* More than one segment, key bound to a dict: the walk descends into it.
* More than one segment, key bound to a non-dict: neither branch at lines
  115 and 118 fires, so the reference stays on the current node and the
  walk continues with the next segment on this same node. -/
def updateNode : List (String × JValue) → List String → JValue → List (String × JValue)
  | d, [], _ => d
  | d, [key], v => aset d key v
  | d, key :: key2 :: ks, v =>
    match alookup d key with
    | none => aset d key (.obj (updateNode [] (key2 :: ks) v))
    | some (.obj e) => aset d key (.obj (updateNode e (key2 :: ks) v))
    | some _ => updateNode d (key2 :: ks) v

/-- AppConfiguration.update (lines 101 to 123).  The returned Bool is true
exactly when the method reached the assignment and save_config call at
lines 109 and 110, and false when it fell through to the warning at line
122.  When self.config is a dict the loop invariant (current_data is
always a dict, since the walk only descends into dict values) makes the
last iteration take the assignment branch; the split key list is never
empty, hence the unreachable inner catch-all.  When self.config is not a
dict no iteration does anything and the warning branch is reached. -/
def update (cfg : JValue) (key_path : String) (value : JValue) : JValue × Bool :=
  match cfg with
  | .obj d =>
    match splitKeys key_path with
    | [] => (.obj d, false)
    | key :: ks => (.obj (updateNode d (key :: ks) value), true)
  | other => (other, false)

end AppConfiguration

/-- Boolean test that the first list of characters is a leading piece of
the second. -/
def isPrefixB : List Char → List Char → Bool
  | [], _ => true
  | _ :: _, [] => false
  | a :: as, b :: bs => a = b && isPrefixB as bs

/-- Boolean test that the first list of characters occurs contiguously
somewhere inside the second. -/
def isInfixB (needle : List Char) : List Char → Bool
  | [] => isPrefixB needle []
  | c :: t => isPrefixB needle (c :: t) || isInfixB needle t

/-- Python substring test: needle in hay. -/
def strContains (hay needle : String) : Bool :=
  isInfixB needle.data hay.data

/-- Python startswith test. -/
def strStartsWith (s piece : String) : Bool :=
  isPrefixB piece.data s.data

/-- os.path.join of a directory path and a relative name on a POSIX
system. -/
def pjoin (a b : String) : String := a ++ "/" ++ b

/-- Full path of the directory reached from the scan root by the given
relative segments: this is the root string produced by os.walk for that
directory. -/
def dirPath (root : String) (segs : List String) : String :=
  segs.foldl pjoin root

/-- Joining of path components with the POSIX separator, as done by
sep.join(comps) in posixpath.normpath. -/
def joinSlash : List String → String
  | [] => ""
  | [x] => x
  | x :: y :: rest => x ++ "/" ++ joinSlash (y :: rest)

/-- String of n slashes. -/
def slashes : Nat → String
  | 0 => ""
  | n + 1 => "/" ++ slashes n

/-- os.path.normpath on a POSIX system (posixpath.normpath), applied by
the source to the scan directory and to every configured ignore path
fragment (lines 217 and 222). -/
def normpath (path : String) : String :=
  if path = "" then "." else
  let islash : Nat :=
    if strStartsWith path "//" && !strStartsWith path "///" then 2
    else if strStartsWith path "/" then 1
    else 0
  let comps := splitOnChar '/' path
  let newComps := comps.foldl
    (fun acc comp =>
      if comp = "" ∨ comp = "." then acc
      else if comp ≠ ".." ∨ (islash = 0 ∧ acc = []) ∨ (acc ≠ [] ∧ acc.getLast? = some "..") then
        acc ++ [comp]
      else if acc = [] then acc
      else acc.dropLast)
    []
  let joined := slashes islash ++ joinSlash newComps
  if joined = "" then "." else joined

/-- One directory visited by os.walk: its path segments relative to the
scan root, and its direct file entries (base name and modification
time). -/
structure DirEntry where
  segs : List String
  files : List (String × Int)
deriving DecidableEq, Repr

/-- The filesystem under the scan root, as the finite list of directories
os.walk visits. -/
abbrev FileSystem := List DirEntry

/-- Python iteration over a value, as consumed by the set constructor in
the FileSyncManager constructor (lines 220 to 222): a string yields its
characters, a list its elements, a dict its keys; anything else raises a
TypeError, modelled by none. -/
def setElems : JValue → Option (List JValue)
  | .str s => some (s.data.map (fun c => JValue.str (String.mk [c])))
  | .arr xs => some xs
  | .obj kvs => some (kvs.map (fun kv => JValue.str kv.1))
  | _ => none

/-- map of os.path.normpath over the configured ignore path fragments
(line 222): every element must be a string, otherwise normpath raises a
TypeError, modelled by none. -/
def normpathStrs : List JValue → Option (List String)
  | [] => some []
  | .str s :: rest => (normpathStrs rest).map (fun r => normpath s :: r)
  | _ :: _ => none

/-- State of a FileSyncManager after its constructor ran (lines 216 to
228).  prev_timestamp holds the raw value read from the store at key path
sync:last-max-timestamp, with null standing for the Python None default
(watermark absent). -/
structure FileSyncManager where
  directory : String
  sync_config : JValue
  ignore_file_list : List JValue
  ignore_file_path_list : List String
  prev_timestamp : JValue
deriving DecidableEq, Repr

/-- Constructor of FileSyncManager (lines 216 to 228): normalize the
directory, read the ignore name set and the ignore path fragments (each
normalized) from the store, and read the stored watermark.  Returns none
when the set construction raises in Python. -/
def FileSyncManager.init (directory : String) (sync_config : JValue) :
    Option FileSyncManager :=
  match setElems (AppConfiguration.get sync_config "sync:ignore_file_list" (.str "")) with
  | none => none
  | some ifl =>
    match setElems (AppConfiguration.get sync_config "sync:ignore_paths" (.arr [])) with
    | none => none
    | some rawPaths =>
      match normpathStrs rawPaths with
      | none => none
      | some ipl =>
        some { directory := normpath directory
               sync_config := sync_config
               ignore_file_list := ifl
               ignore_file_path_list := ipl
               prev_timestamp := AppConfiguration.get sync_config "sync:last-max-timestamp" .null }

/-- Method __is_in_ignore_file_path_list (lines 230 to 234): the directory
path is ignored when any configured fragment occurs in it as a
substring. -/
def FileSyncManager.is_in_ignore_file_path_list (m : FileSyncManager) (root_path : String) : Bool :=
  m.ignore_file_path_list.any (fun fragment => strContains root_path fragment)

/-- Python ordering view of the stored watermark, used by the comparison
file_timestamp > self.prev_timestamp at line 267: None means no watermark,
a number is itself, a Bool compares as 0 or 1, and any other value makes
the comparison raise a TypeError, modelled by none.  (In Python the
TypeError is raised at the first file that reaches the comparison; we
model such a scan as failing up front.) -/
def asPrevTimestamp : JValue → Option (Option Int)
  | .null => some none
  | .num n => some (some n)
  | .bool b => some (some (if b then 1 else 0))
  | _ => none

/-- Mutable state of the scan loop in scan_files: the accumulated
file_list and the running latest_timestamp. -/
structure ScanState where
  file_list : List String
  latest_timestamp : Option Int
deriving DecidableEq, Repr

/-- Update of the running maximum at lines 270 and 271: executed only for
an included file. -/
def updLatest (cur : Option Int) (t : Int) : Option Int :=
  match cur with
  | none => some t
  | some x => if t > x then some t else some x

/-- Inclusion test at line 267: no watermark, or the file timestamp is
strictly greater than it. -/
def timestampOk (prev : Option Int) (t : Int) : Bool :=
  match prev with
  | none => true
  | some w => t > w

/-- Body of the inner file loop of scan_files (lines 255 to 273) for one
file entry of the directory at path root. -/
def fileStep (m : FileSyncManager) (prev : Option Int) (root : String)
    (st : ScanState) (f : String × Int) : ScanState :=
  if JValue.str f.1 ∈ m.ignore_file_list then st
  else if timestampOk prev f.2 then
    { file_list := st.file_list ++ [pjoin root f.1]
      latest_timestamp := updLatest st.latest_timestamp f.2 }
  else st

/-- Body of the outer directory loop of scan_files (lines 249 to 273) for
one visited directory: if the directory path contains an ignore fragment
the whole file loop is skipped (the walk itself still visits its
subdirectories, which appear as later entries of the FileSystem list). -/
def dirStep (m : FileSyncManager) (prev : Option Int) (st : ScanState) (d : DirEntry) : ScanState :=
  let root := dirPath m.directory d.segs
  if m.is_in_ignore_file_path_list root then st
  else d.files.foldl (fileStep m prev root) st

/-- The whole walk of scan_files starting from the empty state (lines 244
to 273). -/
def runWalk (m : FileSyncManager) (prev : Option Int) (fs : FileSystem) : ScanState :=
  fs.foldl (dirStep m prev) { file_list := [], latest_timestamp := none }

/-- FileSyncManager.scan_files (lines 236 to 281): walk the tree, then, if
any file was included, write the running maximum back to the watermark key
path through AppConfiguration.update; return the included paths together
with the resulting configuration tree. -/
def FileSyncManager.scan_files (m : FileSyncManager) (fs : FileSystem) :
    Option (List String × JValue) :=
  match asPrevTimestamp m.prev_timestamp with
  | none => none
  | some prev =>
    let st := runWalk m prev fs
    match st.latest_timestamp with
    | some t =>
      some (st.file_list, (AppConfiguration.update m.sync_config "sync:last-max-timestamp" (.num t)).1)
    | none => some (st.file_list, m.sync_config)

/-- One scan as performed by main (lines 300 to 302): construct a fresh
FileSyncManager over the store and run scan_files. -/
def scanRun (cfg : JValue) (directory : String) (fs : FileSystem) :
    Option (List String × JValue) :=
  match FileSyncManager.init directory cfg with
  | none => none
  | some m => m.scan_files fs

/-- Fold of updLatest over a list of timestamps: the value of the running
maximum after processing those timestamps, starting from acc. -/
def runLatest (acc : Option Int) (ts : List Int) : Option Int :=
  ts.foldl updLatest acc

/-- The file entries of one directory that survive the ignore-name filter,
as pairs of the joined absolute path and the timestamp. -/
def fileCands (m : FileSyncManager) (root : String) (files : List (String × Int)) :
    List (String × Int) :=
  (files.filter (fun f => !(decide (JValue.str f.1 ∈ m.ignore_file_list)))).map
    (fun f => (pjoin root f.1, f.2))

/-- The candidate files contributed by one visited directory: none when the
directory path contains an ignore fragment, its non-ignored files
otherwise. -/
def dirCandidates (m : FileSyncManager) (d : DirEntry) : List (String × Int) :=
  let root := dirPath m.directory d.segs
  if m.is_in_ignore_file_path_list root then []
  else fileCands m root d.files

/-- All candidate files of a walk, in visit order: the files that reach
the timestamp check at line 267. -/
def candidates (m : FileSyncManager) (fs : FileSystem) : List (String × Int) :=
  (fs.map (dirCandidates m)).flatten

/-- The candidate files that pass the timestamp check: exactly the files
appended to file_list during the walk. -/
def included (m : FileSyncManager) (prev : Option Int) (fs : FileSystem) :
    List (String × Int) :=
  (candidates m fs).filter (fun c => timestampOk prev c.2)

/-- Membership of an association-list node in a JValue tree: e is the root
association list, or occurs (strictly below) as the association list of
some obj value in the tree. -/
inductive NodeIn : List (String × JValue) → JValue → Prop where
  | here (d : List (String × JValue)) : NodeIn d (.obj d)
  | there {e : List (String × JValue)} {d : List (String × JValue)} (k : String) (v : JValue)
      (hm : (k, v) ∈ d) (h : NodeIn e v) : NodeIn e (.obj d)

/-- Concrete manager used by witnesses: scan root r, ignore fragment
build, no ignored names, no stored watermark. -/
def mBuild : FileSyncManager :=
  { directory := "r", sync_config := .obj [], ignore_file_list := [],
    ignore_file_path_list := ["build"], prev_timestamp := .null }

/-- Concrete manager used by witnesses: scan root r, ignored file name
skip.txt, no ignored paths, no stored watermark. -/
def mSkip : FileSyncManager :=
  { directory := "r", sync_config := .obj [], ignore_file_list := [.str "skip.txt"],
    ignore_file_path_list := [], prev_timestamp := .null }

/-- Manager obtained by constructing a FileSyncManager with scan root r
over the empty store. -/
def mEmpty : FileSyncManager :=
  { directory := "r", sync_config := .obj [], ignore_file_list := [],
    ignore_file_path_list := [], prev_timestamp := .null }

theorem alookup_aset_self (d : List (String × JValue)) (k : String) (v : JValue) :
    alookup (aset d k v) k = some v := by
  induction d with
  | nil => simp [aset, alookup]
  | cons hd tl ih =>
    obtain ⟨k1, w⟩ := hd
    by_cases h : k1 = k
    · simp [aset, alookup, h]
    · simp [aset, alookup, h, ih]

theorem alookup_aset_ne (d : List (String × JValue)) (k k2 : String) (v : JValue)
    (h : k2 ≠ k) : alookup (aset d k v) k2 = alookup d k2 := by
  induction d with
  | nil => simp [aset, alookup, Ne.symm h]
  | cons hd tl ih =>
    obtain ⟨k1, w⟩ := hd
    by_cases h1 : k1 = k
    · subst h1
      simp [aset, alookup, Ne.symm h]
    · simp [aset, alookup, h1, ih]

theorem mem_aset_self (d : List (String × JValue)) (k : String) (v : JValue) :
    (k, v) ∈ aset d k v := by
  induction d with
  | nil => simp [aset]
  | cons hd tl ih =>
    obtain ⟨k1, w⟩ := hd
    by_cases h : k1 = k
    · subst h; simp [aset]
    · simp [aset, h, ih]

theorem splitCharList_ne_nil (delim : Char) (cs : List Char) :
    splitCharList delim cs ≠ [] := by
  cases cs with
  | nil => simp [splitCharList]
  | cons c cs =>
    by_cases h : c = delim
    · simp [splitCharList, h]
    · simp only [splitCharList, h, if_false]
      cases hs : splitCharList delim cs <;> simp

theorem splitKeys_ne_nil (s : String) : splitKeys s ≠ [] := by
  simp [splitKeys, splitOnChar, splitCharList_ne_nil]

theorem string_data_append (a b : String) : (a ++ b).data = a.data ++ b.data := by
  cases a; cases b; rfl

theorem isPrefixB_append (n h t : List Char) (hp : isPrefixB n h = true) :
    isPrefixB n (h ++ t) = true := by
  induction n generalizing h with
  | nil => simp [isPrefixB]
  | cons a as ih =>
    cases h with
    | nil => simp [isPrefixB] at hp
    | cons b bs =>
      simp only [isPrefixB, Bool.and_eq_true, decide_eq_true_eq] at hp
      simp only [List.cons_append, isPrefixB, Bool.and_eq_true, decide_eq_true_eq]
      exact ⟨hp.1, ih bs hp.2⟩

theorem isInfixB_append_right (n h t : List Char) (hp : isInfixB n h = true) :
    isInfixB n (h ++ t) = true := by
  induction h with
  | nil =>
    rw [isInfixB] at hp
    cases n with
    | nil =>
      cases t with
      | nil => simp [isInfixB, isPrefixB]
      | cons c cs => simp [isInfixB, isPrefixB]
    | cons a as => simp [isPrefixB] at hp
  | cons b bs ih =>
    rw [isInfixB] at hp
    simp only [Bool.or_eq_true] at hp
    rw [List.cons_append, isInfixB]
    simp only [Bool.or_eq_true]
    rcases hp with hp | hp
    · exact Or.inl (isPrefixB_append n (b :: bs) t hp)
    · exact Or.inr (ih hp)

theorem dirPath_append (root : String) (s t : List String) :
    dirPath root (s ++ t) = dirPath (dirPath root s) t := by
  simp [dirPath, List.foldl_append]

theorem dirPath_data (t : List String) (p : String) :
    ∃ x : List Char, (dirPath p t).data = p.data ++ x := by
  induction t generalizing p with
  | nil => exact ⟨[], by simp [dirPath]⟩
  | cons a t ih =>
    obtain ⟨y, hy⟩ := ih (pjoin p a)
    refine ⟨('/' :: a.data) ++ y, ?_⟩
    have : (pjoin p a).data = p.data ++ ('/' :: a.data) := by
      simp [pjoin, string_data_append]
    rw [show dirPath p (a :: t) = dirPath (pjoin p a) t from rfl, hy, this, List.append_assoc]

theorem strContains_dirPath (p : String) (t : List String) (frag : String)
    (h : strContains p frag = true) : strContains (dirPath p t) frag = true := by
  obtain ⟨x, hx⟩ := dirPath_data t p
  rw [strContains, hx]
  exact isInfixB_append_right frag.data p.data x h

theorem foldl_fileStep_eq (m : FileSyncManager) (prev : Option Int) (root : String) :
    ∀ (files : List (String × Int)) (st : ScanState),
    files.foldl (fileStep m prev root) st =
      { file_list := st.file_list ++
          ((fileCands m root files).filter (fun c => timestampOk prev c.2)).map Prod.fst
        latest_timestamp := runLatest st.latest_timestamp
          (((fileCands m root files).filter (fun c => timestampOk prev c.2)).map Prod.snd) } := by
  intro files
  induction files with
  | nil => intro st; simp [fileCands, runLatest]
  | cons f files ih =>
    intro st
    by_cases hig : JValue.str f.1 ∈ m.ignore_file_list
    · have hstep : fileStep m prev root st f = st := by simp [fileStep, hig]
      have hc : fileCands m root (f :: files) = fileCands m root files := by
        simp [fileCands, hig]
      simp only [List.foldl_cons, hstep, hc, ih]
    · have hc : fileCands m root (f :: files) =
          (pjoin root f.1, f.2) :: fileCands m root files := by
        simp [fileCands, hig]
      cases hts : timestampOk prev f.2 with
      | false =>
        have hstep : fileStep m prev root st f = st := by simp [fileStep, hig, hts]
        simp only [List.foldl_cons, hstep, hc, List.filter_cons, hts]
        simp only [Bool.false_eq_true, if_false, ih]
      | true =>
        have hstep : fileStep m prev root st f =
            { file_list := st.file_list ++ [pjoin root f.1]
              latest_timestamp := updLatest st.latest_timestamp f.2 } := by
          simp [fileStep, hig, hts]
        simp only [List.foldl_cons, hstep, hc, List.filter_cons, hts, if_true, ih,
          List.map_cons, List.append_assoc, List.singleton_append, runLatest, List.foldl_cons]

theorem foldl_dirStep_eq (m : FileSyncManager) (prev : Option Int) :
    ∀ (fs : FileSystem) (st : ScanState),
    fs.foldl (dirStep m prev) st =
      { file_list := st.file_list ++ (included m prev fs).map Prod.fst
        latest_timestamp := runLatest st.latest_timestamp ((included m prev fs).map Prod.snd) } := by
  intro fs
  induction fs with
  | nil => intro st; simp [included, candidates, runLatest]
  | cons d fs ih =>
    intro st
    have hinc : included m prev (d :: fs) =
        (dirCandidates m d).filter (fun c => timestampOk prev c.2) ++ included m prev fs := by
      simp [included, candidates, List.filter_append]
    by_cases hig : m.is_in_ignore_file_path_list (dirPath m.directory d.segs)
    · have hstep : dirStep m prev st d = st := by simp [dirStep, hig]
      have hdc : dirCandidates m d = [] := by simp [dirCandidates, hig]
      simp only [List.foldl_cons, hstep, hinc, hdc, List.filter_nil, List.nil_append, ih]
    · have hstep : dirStep m prev st d =
          d.files.foldl (fileStep m prev (dirPath m.directory d.segs)) st := by
        simp [dirStep, hig]
      have hdc : dirCandidates m d = fileCands m (dirPath m.directory d.segs) d.files := by
        simp [dirCandidates, hig]
      rw [List.foldl_cons, hstep, foldl_fileStep_eq, ih, hinc, hdc]
      simp [List.map_append, List.append_assoc, runLatest, List.foldl_append]

theorem runWalk_eq (m : FileSyncManager) (prev : Option Int) (fs : FileSystem) :
    runWalk m prev fs =
      { file_list := (included m prev fs).map Prod.fst
        latest_timestamp := runLatest none ((included m prev fs).map Prod.snd) } := by
  rw [runWalk, foldl_dirStep_eq]
  simp

theorem updLatest_some (acc : Option Int) (t : Int) :
    ∃ b, updLatest acc t = some b ∧ t ≤ b ∧ ∀ a, acc = some a → a ≤ b := by
  cases acc with
  | none => exact ⟨t, rfl, le_refl t, by simp⟩
  | some x =>
    by_cases h : t > x
    · exact ⟨t, by simp [updLatest, h], le_refl t, by intro a ha; injection ha with ha; omega⟩
    · exact ⟨x, by simp [updLatest, h], by omega, by intro a ha; injection ha with ha; omega⟩

theorem runLatest_eq_none_iff (ts : List Int) :
    ∀ acc : Option Int, (runLatest acc ts = none ↔ acc = none ∧ ts = []) := by
  induction ts with
  | nil => intro acc; simp [runLatest]
  | cons t ts ih =>
    intro acc
    obtain ⟨b, hb, _, _⟩ := updLatest_some acc t
    rw [runLatest, List.foldl_cons, hb, show List.foldl updLatest (some b) ts = runLatest (some b) ts from rfl, ih]
    simp

theorem runLatest_max (ts : List Int) :
    ∀ (acc : Option Int) (M : Int), runLatest acc ts = some M →
      (acc = some M ∨ M ∈ ts) ∧ (∀ a, acc = some a → a ≤ M) ∧ ∀ x ∈ ts, x ≤ M := by
  induction ts with
  | nil =>
    intro acc M h
    rw [runLatest] at h
    simp only [List.foldl_nil] at h
    exact ⟨Or.inl h, by intro a ha; rw [ha] at h; injection h with h; omega, by simp⟩
  | cons t ts ih =>
    intro acc M h
    obtain ⟨b, hb, htb, hab⟩ := updLatest_some acc t
    rw [runLatest, List.foldl_cons, hb] at h
    obtain ⟨hmem, hle, hall⟩ := ih (some b) M h
    have hbM : b ≤ M := hle b rfl
    refine ⟨?_, ?_, ?_⟩
    · rcases hmem with hm | hm
      · injection hm with hm
        subst hm
        cases acc with
        | none =>
          have hnt : updLatest none t = some t := rfl
          rw [hnt] at hb
          injection hb with hb
          right
          rw [← hb]
          simp
        | some x =>
          have hx : x ≤ b := hab x rfl
          by_cases hc : t > x
          · have : updLatest (some x) t = some t := by simp [updLatest, hc]
            rw [this] at hb
            injection hb with hb
            right
            simp [hb]
          · have : updLatest (some x) t = some x := by simp [updLatest, hc]
            rw [this] at hb
            injection hb with hb
            left
            rw [hb]
      · exact Or.inr (List.mem_cons_of_mem t hm)
    · intro a ha
      have := hab a ha
      omega
    · intro x hx
      rcases List.mem_cons.mp hx with hx | hx
      · subst hx; omega
      · exact hall x hx

theorem splitKeys_sync : splitKeys "sync:last-max-timestamp" = ["sync", "last-max-timestamp"] := by
  decide

theorem splitKeys_ifl : splitKeys "sync:ignore_file_list" = ["sync", "ignore_file_list"] := by
  decide

theorem splitKeys_ipl : splitKeys "sync:ignore_paths" = ["sync", "ignore_paths"] := by
  decide

theorem get_eq_getKeys (cfg : JValue) (kp : String) (ks : List String) (dflt : JValue)
    (h : splitKeys kp = ks) :
    AppConfiguration.get cfg kp dflt = AppConfiguration.getKeys cfg ks dflt := by
  rw [AppConfiguration.get, h]

theorem update_eq_updateNode (dd : List (String × JValue)) (kp k1 : String) (ks : List String)
    (v : JValue) (h : splitKeys kp = k1 :: ks) :
    AppConfiguration.update (.obj dd) kp v =
      (.obj (AppConfiguration.updateNode dd (k1 :: ks) v), true) := by
  rw [AppConfiguration.update, h]

theorem updateNode_two_none (dd : List (String × JValue)) (k1 k2 : String) (v : JValue)
    (h : alookup dd k1 = none) :
    AppConfiguration.updateNode dd [k1, k2] v = aset dd k1 (.obj [(k2, v)]) := by
  simp [AppConfiguration.updateNode, h, aset]

theorem updateNode_two_obj (dd e : List (String × JValue)) (k1 k2 : String) (v : JValue)
    (h : alookup dd k1 = some (.obj e)) :
    AppConfiguration.updateNode dd [k1, k2] v = aset dd k1 (.obj (aset e k2 v)) := by
  simp [AppConfiguration.updateNode, h]

theorem updateNode_two_leaf (dd : List (String × JValue)) (l : JValue) (k1 k2 : String)
    (v : JValue) (h : alookup dd k1 = some l) (hl : l.isObj = false) :
    AppConfiguration.updateNode dd [k1, k2] v = aset dd k2 v := by
  cases l <;> simp_all [AppConfiguration.updateNode, JValue.isObj]

theorem getKeys_two_num_inv (cfg : JValue) (k1 k2 : String) (w : Int)
    (h : AppConfiguration.getKeys cfg [k1, k2] .null = .num w) :
    ∃ dd e, cfg = .obj dd ∧ alookup dd k1 = some (.obj e) ∧ alookup e k2 = some (.num w) := by
  cases cfg with
  | obj dd =>
    cases ha : alookup dd k1 with
    | none => simp [AppConfiguration.getKeys, ha] at h
    | some v =>
      cases v with
      | obj e =>
        cases hb : alookup e k2 with
        | none => simp [AppConfiguration.getKeys, ha, hb] at h
        | some x =>
          simp only [AppConfiguration.getKeys, ha, hb] at h
          exact ⟨dd, e, rfl, ha, by rw [hb, h]⟩
      | null => simp [AppConfiguration.getKeys, ha] at h
      | bool b => simp [AppConfiguration.getKeys, ha] at h
      | num n => simp [AppConfiguration.getKeys, ha] at h
      | str s => simp [AppConfiguration.getKeys, ha] at h
      | arr a => simp [AppConfiguration.getKeys, ha] at h
  | null => simp [AppConfiguration.getKeys] at h
  | bool b => simp [AppConfiguration.getKeys] at h
  | num n => simp [AppConfiguration.getKeys] at h
  | str s => simp [AppConfiguration.getKeys] at h
  | arr a => simp [AppConfiguration.getKeys] at h

theorem get_sync_after_update (dd : List (String × JValue)) (v : JValue)
    (hsync : alookup dd "sync" = none ∨ ∃ e, alookup dd "sync" = some (.obj e)) :
    AppConfiguration.get (AppConfiguration.update (.obj dd) "sync:last-max-timestamp" v).1
      "sync:last-max-timestamp" .null = v := by
  rw [update_eq_updateNode dd _ _ _ v splitKeys_sync]
  rcases hsync with h | ⟨e, h⟩
  · rw [get_eq_getKeys _ _ _ _ splitKeys_sync, updateNode_two_none dd _ _ v h]
    simp [AppConfiguration.getKeys, alookup_aset_self, alookup]
  · rw [get_eq_getKeys _ _ _ _ splitKeys_sync, updateNode_two_obj dd e _ _ v h]
    simp [AppConfiguration.getKeys, alookup_aset_self]

theorem getKeys_other_after_update (dd : List (String × JValue)) (v : JValue) (k2 : String)
    (hk2 : k2 ≠ "last-max-timestamp")
    (hsync : alookup dd "sync" = none ∨ ∃ e, alookup dd "sync" = some (.obj e))
    (dflt : JValue) :
    AppConfiguration.getKeys
      (AppConfiguration.update (.obj dd) "sync:last-max-timestamp" v).1 ["sync", k2] dflt =
      AppConfiguration.getKeys (.obj dd) ["sync", k2] dflt := by
  rw [update_eq_updateNode dd _ _ _ v splitKeys_sync]
  rcases hsync with h | ⟨e, h⟩
  · rw [updateNode_two_none dd _ _ v h]
    simp [AppConfiguration.getKeys, alookup_aset_self, alookup, h, Ne.symm hk2]
  · rw [updateNode_two_obj dd e _ _ v h]
    simp [AppConfiguration.getKeys, alookup_aset_self, h, alookup_aset_ne _ _ _ _ hk2]

theorem scan_files_inv (m : FileSyncManager) (fs : FileSystem) (l : List String) (cfg' : JValue)
    (h : m.scan_files fs = some (l, cfg')) :
    ∃ prev, asPrevTimestamp m.prev_timestamp = some prev ∧
      l = (included m prev fs).map Prod.fst ∧
      ((∃ M, runLatest none ((included m prev fs).map Prod.snd) = some M ∧
          cfg' = (AppConfiguration.update m.sync_config "sync:last-max-timestamp" (.num M)).1) ∨
        (runLatest none ((included m prev fs).map Prod.snd) = none ∧ cfg' = m.sync_config)) := by
  unfold FileSyncManager.scan_files at h
  cases hp : asPrevTimestamp m.prev_timestamp with
  | none => rw [hp] at h; exact absurd h (by simp)
  | some prev =>
    rw [hp] at h
    simp only [runWalk_eq] at h
    refine ⟨prev, rfl, ?_⟩
    cases hl : runLatest none ((included m prev fs).map Prod.snd) with
    | some t =>
      rw [hl] at h
      simp only [Option.some.injEq, Prod.mk.injEq] at h
      exact ⟨h.1.symm, Or.inl ⟨t, rfl, h.2.symm⟩⟩
    | none =>
      rw [hl] at h
      simp only [Option.some.injEq, Prod.mk.injEq] at h
      exact ⟨h.1.symm, Or.inr ⟨rfl, h.2.symm⟩⟩

theorem init_inv (dir : String) (cfg : JValue) (m : FileSyncManager)
    (h : FileSyncManager.init dir cfg = some m) :
    ∃ ifl rawPaths ipl,
      setElems (AppConfiguration.get cfg "sync:ignore_file_list" (.str "")) = some ifl ∧
      setElems (AppConfiguration.get cfg "sync:ignore_paths" (.arr [])) = some rawPaths ∧
      normpathStrs rawPaths = some ipl ∧
      m = { directory := normpath dir, sync_config := cfg, ignore_file_list := ifl,
            ignore_file_path_list := ipl,
            prev_timestamp := AppConfiguration.get cfg "sync:last-max-timestamp" .null } := by
  unfold FileSyncManager.init at h
  cases h1 : setElems (AppConfiguration.get cfg "sync:ignore_file_list" (.str "")) with
  | none => rw [h1] at h; exact absurd h (by simp)
  | some ifl =>
    rw [h1] at h
    dsimp only at h
    cases h2 : setElems (AppConfiguration.get cfg "sync:ignore_paths" (.arr [])) with
    | none => rw [h2] at h; exact absurd h (by simp)
    | some rawPaths =>
      rw [h2] at h
      dsimp only at h
      cases h3 : normpathStrs rawPaths with
      | none => rw [h3] at h; exact absurd h (by simp)
      | some ipl =>
        rw [h3] at h
        injection h with h
        exact ⟨ifl, rawPaths, ipl, rfl, rfl, h3, h.symm⟩

theorem candidates_congr (m m2 : FileSyncManager) (fs : FileSystem)
    (h1 : m2.directory = m.directory) (h2 : m2.ignore_file_list = m.ignore_file_list)
    (h3 : m2.ignore_file_path_list = m.ignore_file_path_list) :
    candidates m2 fs = candidates m fs := by
  have hfun : dirCandidates m2 = dirCandidates m := by
    funext d
    simp [dirCandidates, fileCands, FileSyncManager.is_in_ignore_file_path_list, h1, h2, h3]
  rw [candidates, candidates, hfun]

theorem dirStep_ignored (m : FileSyncManager) (prev : Option Int) (st : ScanState)
    (d : DirEntry) (frag : String) (hf : frag ∈ m.ignore_file_path_list)
    (hc : strContains (dirPath m.directory d.segs) frag = true) :
    dirStep m prev st d = st := by
  have hig : m.is_in_ignore_file_path_list (dirPath m.directory d.segs) = true := by
    simp only [FileSyncManager.is_in_ignore_file_path_list, List.any_eq_true]
    exact ⟨frag, hf, hc⟩
  simp [dirStep, hig]

theorem scanRun_inv (cfg : JValue) (dir : String) (fs : FileSystem) (l : List String)
    (cfg' : JValue) (h : scanRun cfg dir fs = some (l, cfg')) :
    ∃ m, FileSyncManager.init dir cfg = some m ∧ m.scan_files fs = some (l, cfg') := by
  unfold scanRun at h
  cases hi : FileSyncManager.init dir cfg with
  | none => rw [hi] at h; exact absurd h (by simp)
  | some m => rw [hi] at h; exact ⟨m, rfl, h⟩

theorem updateNode_nodeIn (ks : List String) :
    ∀ (k : String), ks.getLast? = some k → ∀ (d : List (String × JValue)) (v : JValue),
      ∃ e, NodeIn e (.obj (AppConfiguration.updateNode d ks v)) ∧ alookup e k = some v := by
  induction ks with
  | nil => intro k hk; simp at hk
  | cons k1 rest ih =>
    intro k hk d v
    cases rest with
    | nil =>
      simp only [List.getLast?_singleton, Option.some.injEq] at hk
      subst hk
      exact ⟨aset d k1 v, NodeIn.here _, alookup_aset_self d k1 v⟩
    | cons k2 rest2 =>
      have hk2 : (k2 :: rest2).getLast? = some k := by
        rw [List.getLast?_cons_cons] at hk
        exact hk
      cases ha : alookup d k1 with
      | none =>
        obtain ⟨e, he, hl⟩ := ih k hk2 [] v
        refine ⟨e, ?_, hl⟩
        simp only [AppConfiguration.updateNode, ha]
        exact NodeIn.there k1 _ (mem_aset_self _ _ _) he
      | some val =>
        cases val with
        | obj e0 =>
          obtain ⟨e, he, hl⟩ := ih k hk2 e0 v
          refine ⟨e, ?_, hl⟩
          simp only [AppConfiguration.updateNode, ha]
          exact NodeIn.there k1 _ (mem_aset_self _ _ _) he
        | null =>
          obtain ⟨e, he, hl⟩ := ih k hk2 d v
          exact ⟨e, by simp only [AppConfiguration.updateNode, ha]; exact he, hl⟩
        | bool b =>
          obtain ⟨e, he, hl⟩ := ih k hk2 d v
          exact ⟨e, by simp only [AppConfiguration.updateNode, ha]; exact he, hl⟩
        | num n =>
          obtain ⟨e, he, hl⟩ := ih k hk2 d v
          exact ⟨e, by simp only [AppConfiguration.updateNode, ha]; exact he, hl⟩
        | str s =>
          obtain ⟨e, he, hl⟩ := ih k hk2 d v
          exact ⟨e, by simp only [AppConfiguration.updateNode, ha]; exact he, hl⟩
        | arr a =>
          obtain ⟨e, he, hl⟩ := ih k hk2 d v
          exact ⟨e, by simp only [AppConfiguration.updateNode, ha]; exact he, hl⟩

theorem exists_getLast?_cons (ks : List String) (k1 : String) :
    ∃ k, (k1 :: ks).getLast? = some k := by
  induction ks generalizing k1 with
  | nil => exact ⟨k1, rfl⟩
  | cons k2 rest ih =>
    obtain ⟨k, hk⟩ := ih k2
    exact ⟨k, by rw [List.getLast?_cons_cons]; exact hk⟩

/-- C1, counterexample: on the store with a bound to the leaf 5, the call
update with key path a:b and value 1 is not a no-op: it changes the tree
(the value 1 is written under b at the root) and it reaches save_config
rather than the warning branch. -/
theorem claim_C1_counterexample :
    (AppConfiguration.update (.obj [("a", .num 5)]) "a:b" (.num 1)).1 ≠
      .obj [("a", .num 5)] ∧
    (AppConfiguration.update (.obj [("a", .num 5)]) "a:b" (.num 1)).2 = true := by
  constructor
  · decide
  · decide

/-- C1, amended: for a two-segment key path whose first segment addresses
an existing leaf, update does not crash and does not modify that leaf
(when the two segments differ), but it is not a no-op: the descent stalls
on the node holding the leaf, the value is written there under the final
segment, and the tree is saved without any warning. -/
theorem claim_C1 (d : List (String × JValue)) (kp a b : String) (v l : JValue)
    (hsplit : splitKeys kp = [a, b]) (hl : alookup d a = some l) (hleaf : l.isObj = false) :
    AppConfiguration.update (.obj d) kp v = (.obj (aset d b v), true) ∧
    (a ≠ b → alookup (aset d b v) a = some l) := by
  constructor
  · rw [update_eq_updateNode d kp a [b] v hsplit, updateNode_two_leaf d l a b v hl hleaf]
  · intro hab
    rw [alookup_aset_ne d b a v hab, hl]

/-- Witness for C1 at the concrete store of the counterexample. -/
theorem claim_C1_witness :
    splitKeys "a:b" = ["a", "b"] ∧
    alookup [("a", JValue.num 5)] "a" = some (.num 5) ∧
    (JValue.num 5).isObj = false ∧
    (AppConfiguration.update (.obj [("a", .num 5)]) "a:b" (.num 1) =
        (.obj (aset [("a", JValue.num 5)] "b" (.num 1)), true) ∧
      ("a" ≠ "b" →
        alookup (aset [("a", JValue.num 5)] "b" (.num 1)) "a" = some (.num 5))) :=
  ⟨by decide, by decide, by decide,
    claim_C1 [("a", .num 5)] "a:b" "a" "b" (.num 1) (.num 5) (by decide) (by decide) (by decide)⟩

/-- C10: whenever the configuration root is a node, update never reaches
the warning branch: it always reaches the assignment and save_config
(first part); the warning branch fires exactly when the root is not a node
(second part, which also shows the tree is then left unchanged); and the
value is always assigned under the final key-path segment on some node of
the resulting tree, namely the deepest node reached during the stalling
descent (third part). -/
theorem claim_C10 :
    (∀ (d : List (String × JValue)) (kp : String) (v : JValue),
        (AppConfiguration.update (.obj d) kp v).2 = true) ∧
    (∀ (j : JValue) (kp : String) (v : JValue), j.isObj = false →
        AppConfiguration.update j kp v = (j, false)) ∧
    (∀ (d : List (String × JValue)) (kp : String) (v : JValue),
        ∃ k e, (splitKeys kp).getLast? = some k ∧
          NodeIn e (AppConfiguration.update (.obj d) kp v).1 ∧ alookup e k = some v) := by
  refine ⟨?_, ?_, ?_⟩
  · intro d kp v
    cases hs : splitKeys kp with
    | nil => exact absurd hs (splitKeys_ne_nil kp)
    | cons k1 ks => rw [update_eq_updateNode d kp k1 ks v hs]
  · intro j kp v hj
    cases j <;> simp_all [AppConfiguration.update, JValue.isObj]
  · intro d kp v
    cases hs : splitKeys kp with
    | nil => exact absurd hs (splitKeys_ne_nil kp)
    | cons k1 ks =>
      obtain ⟨k, hk⟩ := exists_getLast?_cons ks k1
      obtain ⟨e, he, hl⟩ := updateNode_nodeIn (k1 :: ks) k hk d v
      rw [update_eq_updateNode d kp k1 ks v hs]
      exact ⟨k, e, hk, he, hl⟩

/-- Witness for C10 at concrete inputs: a dict root (save reached, value
present under the final segment) and a list root (warning branch, tree
unchanged). -/
theorem claim_C10_witness :
    (AppConfiguration.update (.obj [("a", JValue.num 5)]) "a:b" (.num 1)).2 = true ∧
    ((JValue.arr []).isObj = false ∧
      AppConfiguration.update (.arr []) "a:b" (.num 1) = (.arr [], false)) ∧
    (∃ k e, (splitKeys "a:b").getLast? = some k ∧
        NodeIn e (AppConfiguration.update (.obj [("a", JValue.num 5)]) "a:b" (.num 1)).1 ∧
        alookup e k = some (.num 1)) :=
  ⟨claim_C10.1 [("a", JValue.num 5)] "a:b" (.num 1),
    ⟨by decide, claim_C10.2.1 (.arr []) "a:b" (.num 1) (by decide)⟩,
    claim_C10.2.2 [("a", JValue.num 5)] "a:b" (.num 1)⟩

/-- C8: on any store whose root is a node and in which the intermediate
segments of the key path a:b:c are nodes or absent (and whose a:b node, if
it already exists, has no x entry), update of a:b:c to 5 followed by get
of a:b:c returns 5, intermediate nodes being created as needed, and get of
a:b:x with default fallback returns the default. -/
theorem claim_C8 (d : List (String × JValue))
    (h : alookup d "a" = none ∨
      ∃ e, alookup d "a" = some (.obj e) ∧
        (alookup e "b" = none ∨
          ∃ f, alookup e "b" = some (.obj f) ∧ alookup f "x" = none)) :
    AppConfiguration.get (AppConfiguration.update (.obj d) "a:b:c" (.num 5)).1 "a:b:c"
      .null = .num 5 ∧
    AppConfiguration.get (AppConfiguration.update (.obj d) "a:b:c" (.num 5)).1 "a:b:x"
      (.str "fallback") = .str "fallback" := by
  have hu : splitKeys "a:b:c" = ["a", "b", "c"] := by decide
  have hx : splitKeys "a:b:x" = ["a", "b", "x"] := by decide
  rw [update_eq_updateNode d _ _ _ _ hu, get_eq_getKeys _ _ _ _ hu, get_eq_getKeys _ _ _ _ hx]
  rcases h with ha | ⟨e, ha, hb⟩
  · simp only [AppConfiguration.updateNode, ha, alookup]
    constructor
    · simp [AppConfiguration.getKeys, alookup_aset_self, alookup, aset]
    · simp [AppConfiguration.getKeys, alookup_aset_self, alookup, aset]
  · rcases hb with hb | ⟨f, hb, hfx⟩
    · simp only [AppConfiguration.updateNode, ha, hb, alookup]
      constructor
      · simp [AppConfiguration.getKeys, alookup_aset_self, alookup, aset]
      · simp [AppConfiguration.getKeys, alookup_aset_self, alookup, aset]
    · simp only [AppConfiguration.updateNode, ha, hb]
      constructor
      · simp [AppConfiguration.getKeys, alookup_aset_self]
      · simp [AppConfiguration.getKeys, alookup_aset_self,
          alookup_aset_ne f "c" "x" _ (by decide), hfx]

/-- Witness for C8 on the empty store. -/
theorem claim_C8_witness :
    (alookup [] "a" = none ∨
      ∃ e, alookup [] "a" = some (.obj e) ∧
        (alookup e "b" = none ∨
          ∃ f, alookup e "b" = some (.obj f) ∧ alookup f "x" = none)) ∧
    (AppConfiguration.get (AppConfiguration.update (.obj []) "a:b:c" (.num 5)).1 "a:b:c"
        .null = .num 5 ∧
      AppConfiguration.get (AppConfiguration.update (.obj []) "a:b:c" (.num 5)).1 "a:b:x"
        (.str "fallback") = .str "fallback") :=
  ⟨Or.inl (by decide), claim_C8 [] (Or.inl (by decide))⟩

/-- C5: whenever the path of a visited directory contains a configured
ignore fragment as a substring, the whole file collection of that
directory is skipped; in particular, with fragment build, a file at
r/build/out.txt and a file at r/builder/out.txt are both excluded from the
scan result (substring match, not path-segment match). -/
theorem claim_C5 :
    (∀ (m : FileSyncManager) (prev : Option Int) (st : ScanState) (d : DirEntry),
        (∃ frag ∈ m.ignore_file_path_list,
            strContains (dirPath m.directory d.segs) frag = true) →
        dirStep m prev st d = st) ∧
    scanRun (.obj [("sync", .obj [("ignore_paths", .arr [.str "build"])])]) "r"
        [⟨[], []⟩, ⟨["build"], [("out.txt", 5)]⟩, ⟨["builder"], [("out.txt", 7)]⟩] =
      some ([], .obj [("sync", .obj [("ignore_paths", .arr [.str "build"])])]) := by
  constructor
  · rintro m prev st d ⟨frag, hf, hc⟩
    exact dirStep_ignored m prev st d frag hf hc
  · decide

/-- Witness for C5 on a concrete manager with ignore fragment build and the
directory r/build. -/
theorem claim_C5_witness :
    (∃ frag ∈ mBuild.ignore_file_path_list,
        strContains (dirPath mBuild.directory (⟨["build"], [("out.txt", 5)]⟩ : DirEntry).segs)
          frag = true) ∧
    dirStep mBuild none ⟨[], none⟩ ⟨["build"], [("out.txt", 5)]⟩ = ⟨[], none⟩ :=
  ⟨⟨"build", by decide, by decide⟩,
    claim_C5.1 mBuild none ⟨[], none⟩ ⟨["build"], [("out.txt", 5)]⟩
      ⟨"build", by decide, by decide⟩⟩

/-- C9: if the path of a visited directory (segments s under the scan
root) contains an ignore fragment, then the path of every descendant
directory (segments s ++ t) contains that fragment too, because the
ancestor path is a leading piece of the descendant path; consequently no
directory of that subtree contributes any file to the scan, even though
the walk still visits each of them (each descendant is a later entry of
the walked FileSystem list, and its directory step leaves the scan state
unchanged). -/
theorem claim_C9 (m : FileSyncManager) (frag : String) (hf : frag ∈ m.ignore_file_path_list)
    (s t : List String) (hs : strContains (dirPath m.directory s) frag = true) :
    strContains (dirPath m.directory (s ++ t)) frag = true ∧
    ∀ (prev : Option Int) (st : ScanState) (d : DirEntry), d.segs = s ++ t →
      dirStep m prev st d = st := by
  have hdesc : strContains (dirPath m.directory (s ++ t)) frag = true := by
    rw [dirPath_append]
    exact strContains_dirPath _ t frag hs
  refine ⟨hdesc, ?_⟩
  intro prev st d hd
  refine dirStep_ignored m prev st d frag hf ?_
  rw [hd]
  exact hdesc

/-- Witness for C9 with fragment build, the ignored directory r/build and
its descendant r/build/x. -/
theorem claim_C9_witness :
    "build" ∈ mBuild.ignore_file_path_list ∧
    strContains (dirPath mBuild.directory ["build"]) "build" = true ∧
    (strContains (dirPath mBuild.directory (["build"] ++ ["x"])) "build" = true ∧
      ∀ (prev : Option Int) (st : ScanState) (d : DirEntry), d.segs = ["build"] ++ ["x"] →
        dirStep mBuild prev st d = st) :=
  ⟨by decide, by decide, claim_C9 mBuild "build" (by decide) ["build"] ["x"] (by decide)⟩

/-- C6: a path returned by scan_files always originates from a file entry
whose base name passed the ignore-name filter; hence, for a name in the
ignore set, no returned path is produced by a file entry with that base
name, whatever its timestamp and even when no watermark exists (the
statement quantifies over every manager state, including prev_timestamp
null). -/
theorem claim_C6 (m : FileSyncManager) (fs : FileSystem) (name : String) (l : List String)
    (cfg' : JValue) (hname : JValue.str name ∈ m.ignore_file_list)
    (hscan : m.scan_files fs = some (l, cfg')) :
    ∀ p ∈ l, ∃ d, d ∈ fs ∧ ∃ f, f ∈ d.files ∧
      p = pjoin (dirPath m.directory d.segs) f.1 ∧ f.1 ≠ name := by
  obtain ⟨prev, hp, hl, _⟩ := scan_files_inv m fs l cfg' hscan
  subst hl
  intro p hp2
  obtain ⟨c, hc, hcp⟩ := List.mem_map.mp hp2
  have hc2 : c ∈ candidates m fs := (List.mem_filter.mp hc).1
  rw [candidates] at hc2
  obtain ⟨lc, hlc, hclc⟩ := List.mem_flatten.mp hc2
  obtain ⟨d, hd, hdc⟩ := List.mem_map.mp hlc
  subst hdc
  rw [dirCandidates] at hclc
  cases hig : m.is_in_ignore_file_path_list (dirPath m.directory d.segs) with
  | true => simp [hig] at hclc
  | false =>
    simp only [hig, Bool.false_eq_true, if_false] at hclc
    rw [fileCands] at hclc
    obtain ⟨f, hf, hfc⟩ := List.mem_map.mp hclc
    have hfm := List.mem_filter.mp hf
    refine ⟨d, hd, f, hfm.1, ?_, ?_⟩
    · rw [← hcp, ← hfc]
    · intro heq
      have hmem : JValue.str f.1 ∈ m.ignore_file_list := by rw [heq]; exact hname
      have hb := hfm.2
      simp only [Bool.not_eq_eq_eq_not, Bool.not_true, decide_eq_false_iff_not] at hb
      exact hb hmem

/-- Witness for C6: the manager ignoring skip.txt over a directory holding
skip.txt and a.txt returns only r/a.txt, and the provenance statement
holds for it. -/
theorem claim_C6_witness :
    JValue.str "skip.txt" ∈ mSkip.ignore_file_list ∧
    mSkip.scan_files [⟨[], [("skip.txt", 100), ("a.txt", 50)]⟩] =
      some (["r/a.txt"], .obj [("sync", .obj [("last-max-timestamp", .num 50)])]) ∧
    ∀ p ∈ ["r/a.txt"], ∃ d, d ∈ ([⟨[], [("skip.txt", 100), ("a.txt", 50)]⟩] : FileSystem) ∧
      ∃ f, f ∈ d.files ∧ p = pjoin (dirPath mSkip.directory d.segs) f.1 ∧ f.1 ≠ "skip.txt" :=
  ⟨by decide, by decide,
    claim_C6 mSkip [⟨[], [("skip.txt", 100), ("a.txt", 50)]⟩] "skip.txt" ["r/a.txt"]
      (.obj [("sync", .obj [("last-max-timestamp", .num 50)])]) (by decide) (by decide)⟩

/-- C2, counterexample: with skip.txt (mtime 100) ignored by name and
a.txt (mtime 50) included, the watermark candidate written after the walk
is 50, the maximum over the included files only, and not 100, the maximum
modification time among all scanned files: a file skipped by the ignore
rules does not contribute to the running maximum (its timestamp is never
read). -/
theorem claim_C2_counterexample :
    scanRun (.obj [("sync", .obj [("ignore_file_list", .arr [.str "skip.txt"])])]) "r"
        [⟨[], [("skip.txt", 100), ("a.txt", 50)]⟩] =
      some (["r/a.txt"],
        .obj [("sync", .obj [("ignore_file_list", .arr [.str "skip.txt"]),
          ("last-max-timestamp", .num 50)])]) ∧
    AppConfiguration.get
      (.obj [("sync", .obj [("ignore_file_list", .arr [.str "skip.txt"]),
        ("last-max-timestamp", .num 50)])]) "sync:last-max-timestamp" .null = .num 50 ∧
    JValue.num 50 ≠ JValue.num 100 := by
  refine ⟨by decide, by decide, by decide⟩

/-- C2, amended: the running maximum after the walk (which becomes the
watermark candidate written through update when any file was included) is
the maximum modification time among the included files only: it is none
exactly when no file was included, and otherwise it is a timestamp of an
included file that bounds every included timestamp; files skipped by the
ignore rules or by the timestamp filter contribute nothing to it. -/
theorem claim_C2 (m : FileSyncManager) (prev : Option Int) (fs : FileSystem) :
    ((runWalk m prev fs).latest_timestamp = none ↔ included m prev fs = []) ∧
    ∀ M, (runWalk m prev fs).latest_timestamp = some M →
      M ∈ (included m prev fs).map Prod.snd ∧
      ∀ x ∈ (included m prev fs).map Prod.snd, x ≤ M := by
  rw [runWalk_eq]
  dsimp only
  constructor
  · rw [runLatest_eq_none_iff]
    simp
  · intro M hM
    obtain ⟨hmem, _, hall⟩ := runLatest_max _ none M hM
    rcases hmem with h | h
    · exact absurd h (by simp)
    · exact ⟨h, hall⟩

/-- Witness for C2 on the counterexample scenario: the walk yields latest
timestamp 50, which is a member of and an upper bound for the included
timestamps. -/
theorem claim_C2_witness :
    (runWalk mSkip none [⟨[], [("skip.txt", 100), ("a.txt", 50)]⟩]).latest_timestamp =
      some 50 ∧
    (50 ∈ (included mSkip none [⟨[], [("skip.txt", 100), ("a.txt", 50)]⟩]).map Prod.snd ∧
      ∀ x ∈ (included mSkip none [⟨[], [("skip.txt", 100), ("a.txt", 50)]⟩]).map Prod.snd,
        x ≤ 50) :=
  ⟨by decide,
    (claim_C2 mSkip none [⟨[], [("skip.txt", 100), ("a.txt", 50)]⟩]).2 50 (by decide)⟩

/-- C3: across one scan against the store (fresh manager construction
followed by scan_files, as main does), the stored watermark value never
decreases: if the watermark key path holds the number w before the scan,
then after the scan it holds a number w2 with w less than or equal to w2
(the watermark is either untouched, or overwritten by the running maximum
of the included files, each of which passed the strict comparison against
w).  Chaining this over a sequence of scans gives monotonicity for the
whole sequence, whatever the filesystem contents at each scan. -/
theorem claim_C3 (cfg : JValue) (dir : String) (fs : FileSystem) (l : List String)
    (cfg' : JValue) (w : Int)
    (hscan : scanRun cfg dir fs = some (l, cfg'))
    (hw : AppConfiguration.get cfg "sync:last-max-timestamp" .null = .num w) :
    ∃ w2, AppConfiguration.get cfg' "sync:last-max-timestamp" .null = .num w2 ∧ w ≤ w2 := by
  obtain ⟨m, hinit, hsf⟩ := scanRun_inv cfg dir fs l cfg' hscan
  obtain ⟨ifl, rawPaths, ipl, _, _, _, hm⟩ := init_inv dir cfg m hinit
  obtain ⟨prev, hprev, hl, hcases⟩ := scan_files_inv m fs l cfg' hsf
  have hpm : m.prev_timestamp = .num w := by rw [hm]; exact hw
  have hprev2 : prev = some w := by
    rw [hpm] at hprev
    simp only [asPrevTimestamp, Option.some.injEq] at hprev
    exact hprev.symm
  obtain ⟨dd, e, hcfg, hsyncE, hlmt⟩ := getKeys_two_num_inv cfg "sync" "last-max-timestamp" w
    (by rw [← get_eq_getKeys cfg _ _ _ splitKeys_sync]; exact hw)
  have hmsc : m.sync_config = cfg := by rw [hm]
  rcases hcases with ⟨M, hM, hcfg'⟩ | ⟨hnone, hcfg'⟩
  · obtain ⟨hmem, _, _⟩ := runLatest_max _ none M hM
    rcases hmem with hh | hh
    · exact absurd hh (by simp)
    · obtain ⟨c, hc, hc2⟩ := List.mem_map.mp hh
      have hts := (List.mem_filter.mp hc).2
      rw [hprev2] at hts
      have hcw : c.2 > w := by simpa [timestampOk] using hts
      have hMw : w < M := by rw [← hc2]; exact hcw
      have hsync2 : alookup dd "sync" = none ∨ ∃ e2, alookup dd "sync" = some (.obj e2) :=
        Or.inr ⟨e, hsyncE⟩
      refine ⟨M, ?_, le_of_lt hMw⟩
      rw [hcfg', hmsc, hcfg]
      exact get_sync_after_update dd (.num M) hsync2
  · refine ⟨w, ?_, le_refl w⟩
    rw [hcfg', hmsc]
    exact hw

/-- Witness for C3: a store holding watermark 5 and a directory with one
file of mtime 10; the scan succeeds and the stored watermark afterwards is
a number at least 5. -/
theorem claim_C3_witness :
    scanRun (.obj [("sync", .obj [("last-max-timestamp", .num 5)])]) "r"
        [⟨[], [("a.txt", 10)]⟩] =
      some (["r/a.txt"], .obj [("sync", .obj [("last-max-timestamp", .num 10)])]) ∧
    AppConfiguration.get (.obj [("sync", .obj [("last-max-timestamp", .num 5)])])
      "sync:last-max-timestamp" .null = .num 5 ∧
    ∃ w2, AppConfiguration.get (.obj [("sync", .obj [("last-max-timestamp", .num 10)])])
      "sync:last-max-timestamp" .null = .num w2 ∧ 5 ≤ w2 :=
  ⟨by decide, by decide,
    claim_C3 (.obj [("sync", .obj [("last-max-timestamp", .num 5)])]) "r"
      [⟨[], [("a.txt", 10)]⟩] ["r/a.txt"]
      (.obj [("sync", .obj [("last-max-timestamp", .num 10)])]) 5 (by decide) (by decide)⟩

/-- C7, counterexample: on a store where sync holds the leaf 0, no
watermark is present, and the first scan does return every file, but the
watermark write is misdirected by the stalling update (it lands at the
root, not under sync), so afterwards the stored watermark is still absent
instead of the maximum mtime 10. -/
theorem claim_C7_counterexample :
    AppConfiguration.get (.obj [("sync", .num 0)]) "sync:last-max-timestamp" .null = .null ∧
    scanRun (.obj [("sync", .num 0)]) "r" [⟨[], [("a.txt", 10)]⟩] =
      some (["r/a.txt"], .obj [("sync", .num 0), ("last-max-timestamp", .num 10)]) ∧
    AppConfiguration.get (.obj [("sync", .num 0), ("last-max-timestamp", .num 10)])
      "sync:last-max-timestamp" .null = .null ∧
    JValue.null ≠ JValue.num 10 :=
  ⟨by decide, by decide, by decide, by decide⟩

/-- C7, amended: when no watermark is present and the configuration root
is a node whose sync entry is absent or a node, a scan returns exactly the
candidate files (every file surviving the two ignore filters, in walk
order), and if any file was returned the stored watermark afterwards is
the maximum modification time among those files. -/
theorem claim_C7 (dd : List (String × JValue)) (dir : String) (fs : FileSystem)
    (l : List String) (cfg' : JValue) (m : FileSyncManager)
    (hsync : alookup dd "sync" = none ∨ ∃ e, alookup dd "sync" = some (.obj e))
    (hwm : AppConfiguration.get (.obj dd) "sync:last-max-timestamp" .null = .null)
    (hinit : FileSyncManager.init dir (.obj dd) = some m)
    (hscan : m.scan_files fs = some (l, cfg')) :
    l = (candidates m fs).map Prod.fst ∧
    (l ≠ [] → ∃ M, AppConfiguration.get cfg' "sync:last-max-timestamp" .null = .num M ∧
        M ∈ (candidates m fs).map Prod.snd ∧
        ∀ x ∈ (candidates m fs).map Prod.snd, x ≤ M) := by
  obtain ⟨ifl, rawPaths, ipl, _, _, _, hm⟩ := init_inv dir (.obj dd) m hinit
  obtain ⟨prev, hprev, hl, hcases⟩ := scan_files_inv m fs l cfg' hscan
  have hpm : m.prev_timestamp = .null := by rw [hm]; exact hwm
  have hprev2 : prev = none := by
    rw [hpm] at hprev
    simp only [asPrevTimestamp, Option.some.injEq] at hprev
    exact hprev.symm
  subst hprev2
  have hinc : included m none fs = candidates m fs := by
    rw [included]
    apply List.filter_eq_self.mpr
    intro c hc
    simp [timestampOk]
  constructor
  · rw [hl, hinc]
  · intro hlne
    rcases hcases with ⟨M, hM, hcfg'⟩ | ⟨hnone, hcfg'⟩
    · obtain ⟨hmem, _, hall⟩ := runLatest_max _ none M hM
      rcases hmem with hh | hh
      · exact absurd hh (by simp)
      · have hmsc : m.sync_config = .obj dd := by rw [hm]
        refine ⟨M, ?_, ?_, ?_⟩
        · rw [hcfg', hmsc]
          exact get_sync_after_update dd (.num M) hsync
        · rw [← hinc]
          exact hh
        · intro x hx
          apply hall
          rw [hinc]
          exact hx
    · exfalso
      have h0 := (runLatest_eq_none_iff _ none).mp hnone
      have hie : included m none fs = [] := List.map_eq_nil_iff.mp h0.2
      apply hlne
      rw [hl, hie]
      rfl

/-- Witness for C7: first run over the empty store with files a.txt (mtime
1) and b.txt (mtime 2); both paths are returned and the stored watermark
becomes 2. -/
theorem claim_C7_witness :
    (alookup ([] : List (String × JValue)) "sync" = none ∨
      ∃ e, alookup ([] : List (String × JValue)) "sync" = some (.obj e)) ∧
    AppConfiguration.get (.obj []) "sync:last-max-timestamp" .null = .null ∧
    FileSyncManager.init "r" (.obj []) = some mEmpty ∧
    mEmpty.scan_files [⟨[], [("a.txt", 1), ("b.txt", 2)]⟩] =
      some (["r/a.txt", "r/b.txt"], .obj [("sync", .obj [("last-max-timestamp", .num 2)])]) ∧
    (["r/a.txt", "r/b.txt"] =
        (candidates mEmpty [⟨[], [("a.txt", 1), ("b.txt", 2)]⟩]).map Prod.fst ∧
      (["r/a.txt", "r/b.txt"] ≠ [] →
        ∃ M, AppConfiguration.get (.obj [("sync", .obj [("last-max-timestamp", .num 2)])])
            "sync:last-max-timestamp" .null = .num M ∧
          M ∈ (candidates mEmpty [⟨[], [("a.txt", 1), ("b.txt", 2)]⟩]).map Prod.snd ∧
          ∀ x ∈ (candidates mEmpty [⟨[], [("a.txt", 1), ("b.txt", 2)]⟩]).map Prod.snd,
            x ≤ M)) :=
  ⟨Or.inl (by decide), by decide, by decide, by decide,
    claim_C7 [] "r" [⟨[], [("a.txt", 1), ("b.txt", 2)]⟩] ["r/a.txt", "r/b.txt"]
      (.obj [("sync", .obj [("last-max-timestamp", .num 2)])]) mEmpty (Or.inl (by decide))
      (by decide) (by decide) (by decide)⟩

/-- C4, counterexample: on a store where sync holds the leaf 0, the
watermark write of the first scan is misdirected (the stalling update
writes at the root), so the second scan still sees no watermark and
returns the same non-empty file list again instead of an empty one,
although the filesystem did not change between the two scans. -/
theorem claim_C4_counterexample :
    scanRun (.obj [("sync", .num 0)]) "r" [⟨[], [("a.txt", 10)]⟩] =
      some (["r/a.txt"], .obj [("sync", .num 0), ("last-max-timestamp", .num 10)]) ∧
    scanRun (.obj [("sync", .num 0), ("last-max-timestamp", .num 10)]) "r"
        [⟨[], [("a.txt", 10)]⟩] =
      some (["r/a.txt"], .obj [("sync", .num 0), ("last-max-timestamp", .num 10)]) ∧
    (["r/a.txt"] : List String) ≠ [] :=
  ⟨by decide, by decide, by decide⟩

/-- C4, amended: provided the configuration root is a node whose sync
entry is absent or a node (so that the watermark key path is readable and
writable), two consecutive scans over the same unchanged filesystem give
an empty sequence on the second scan. -/
theorem claim_C4 (dd : List (String × JValue)) (dir : String) (fs : FileSystem)
    (l1 l2 : List String) (cfg1 cfg2 : JValue)
    (hsync : alookup dd "sync" = none ∨ ∃ e, alookup dd "sync" = some (.obj e))
    (h1 : scanRun (.obj dd) dir fs = some (l1, cfg1))
    (h2 : scanRun cfg1 dir fs = some (l2, cfg2)) :
    l2 = [] := by
  obtain ⟨m, hinit, hsf⟩ := scanRun_inv (.obj dd) dir fs l1 cfg1 h1
  obtain ⟨ifl, rawPaths, ipl, hifl, hraw, hnps, hm⟩ := init_inv dir (.obj dd) m hinit
  obtain ⟨prev, hprev, hl1, hcases⟩ := scan_files_inv m fs l1 cfg1 hsf
  have hmsc : m.sync_config = .obj dd := by rw [hm]
  rcases hcases with ⟨M, hM, hcfg1⟩ | ⟨hnone, hcfg1⟩
  · rw [hmsc] at hcfg1
    obtain ⟨m2, hinit2, hsf2⟩ := scanRun_inv cfg1 dir fs l2 cfg2 h2
    obtain ⟨ifl2, rawPaths2, ipl2, hifl2, hraw2, hnps2, hm2⟩ := init_inv dir cfg1 m2 hinit2
    have hg1 : AppConfiguration.get cfg1 "sync:ignore_file_list" (.str "") =
        AppConfiguration.get (.obj dd) "sync:ignore_file_list" (.str "") := by
      rw [get_eq_getKeys _ _ _ _ splitKeys_ifl, get_eq_getKeys _ _ _ _ splitKeys_ifl, hcfg1]
      exact getKeys_other_after_update dd (.num M) "ignore_file_list" (by decide) hsync _
    have hg2 : AppConfiguration.get cfg1 "sync:ignore_paths" (.arr []) =
        AppConfiguration.get (.obj dd) "sync:ignore_paths" (.arr []) := by
      rw [get_eq_getKeys _ _ _ _ splitKeys_ipl, get_eq_getKeys _ _ _ _ splitKeys_ipl, hcfg1]
      exact getKeys_other_after_update dd (.num M) "ignore_paths" (by decide) hsync _
    have hifl_eq : ifl2 = ifl := by
      rw [hg1, hifl] at hifl2
      injection hifl2 with hifl2
      exact hifl2.symm
    have hraw_eq : rawPaths2 = rawPaths := by
      rw [hg2, hraw] at hraw2
      injection hraw2 with hraw2
      exact hraw2.symm
    have hipl_eq : ipl2 = ipl := by
      rw [hraw_eq, hnps] at hnps2
      injection hnps2 with hnps2
      exact hnps2.symm
    have hp2get : AppConfiguration.get cfg1 "sync:last-max-timestamp" .null = .num M := by
      rw [hcfg1]
      exact get_sync_after_update dd (.num M) hsync
    obtain ⟨prev2, hprev2, hl2, _⟩ := scan_files_inv m2 fs l2 cfg2 hsf2
    have hpm2 : m2.prev_timestamp = .num M := by rw [hm2]; exact hp2get
    have hprev2x : prev2 = some M := by
      rw [hpm2] at hprev2
      simp only [asPrevTimestamp, Option.some.injEq] at hprev2
      exact hprev2.symm
    subst hprev2x
    have hcand : candidates m2 fs = candidates m fs := by
      apply candidates_congr
      · rw [hm2, hm]
      · rw [hm2, hm]
        exact hifl_eq
      · rw [hm2, hm]
        exact hipl_eq
    obtain ⟨hmem, _, hall⟩ := runLatest_max _ none M hM
    rcases hmem with hh | hh
    · exact absurd hh (by simp)
    · have hincl2 : included m2 (some M) fs = [] := by
        rw [included, hcand]
        rw [List.filter_eq_nil_iff]
        intro c hc
        have hcle : c.2 ≤ M := by
          cases prev with
          | none =>
            have hcin : c ∈ included m none fs := by
              rw [included]
              exact List.mem_filter.mpr ⟨hc, by simp [timestampOk]⟩
            exact hall c.2 (List.mem_map.mpr ⟨c, hcin, rfl⟩)
          | some w =>
            by_cases hcw : timestampOk (some w) c.2 = true
            · have hcin : c ∈ included m (some w) fs := List.mem_filter.mpr ⟨hc, hcw⟩
              exact hall c.2 (List.mem_map.mpr ⟨c, hcin, rfl⟩)
            · obtain ⟨c0, hc0, hc02⟩ := List.mem_map.mp hh
              have h3 := (List.mem_filter.mp hc0).2
              have hMgtw : w < M := by
                rw [← hc02]
                simpa [timestampOk] using h3
              have hclew : c.2 ≤ w := by
                have := hcw
                simp only [timestampOk, decide_eq_true_eq] at this
                omega
              omega
        simp only [timestampOk, decide_eq_true_eq]
        omega
      rw [hl2, hincl2]
      rfl
  · rw [hcfg1, hmsc] at h2
    rw [h1] at h2
    injection h2 with h2
    have hl12 : l1 = l2 := congrArg Prod.fst h2
    have h0 := (runLatest_eq_none_iff _ none).mp hnone
    have hie : included m prev fs = [] := List.map_eq_nil_iff.mp h0.2
    rw [← hl12, hl1, hie]
    rfl

/-- Witness for C4: two consecutive scans over the empty store and one
file of mtime 10; the second scan returns the empty list. -/
theorem claim_C4_witness :
    (alookup ([] : List (String × JValue)) "sync" = none ∨
      ∃ e, alookup ([] : List (String × JValue)) "sync" = some (.obj e)) ∧
    scanRun (.obj []) "r" [⟨[], [("a.txt", 10)]⟩] =
      some (["r/a.txt"], .obj [("sync", .obj [("last-max-timestamp", .num 10)])]) ∧
    scanRun (.obj [("sync", .obj [("last-max-timestamp", .num 10)])]) "r"
        [⟨[], [("a.txt", 10)]⟩] =
      some ([], .obj [("sync", .obj [("last-max-timestamp", .num 10)])]) ∧
    ([] : List String) = [] :=
  ⟨Or.inl (by decide), by decide, by decide,
    claim_C4 [] "r" [⟨[], [("a.txt", 10)]⟩] ["r/a.txt"] []
      (.obj [("sync", .obj [("last-max-timestamp", .num 10)])])
      (.obj [("sync", .obj [("last-max-timestamp", .num 10)])]) (Or.inl (by decide))
      (by decide) (by decide)⟩
